import Mathlib

/-!
# Verification of the kfzf cache-and-watch engine

A shallow embedding, in Lean 4, of the core components of the kfzf daemon:

* the resource `Store` (internal/store/store.go): a four-level index
  `context → GVR → namespace-bucket → name → Resource` together with
  watch-status flags, and its operations `Add`, `Delete`, `List`,
  `ListNamespaced`, `ListClusterScoped`, `Get`, `Clear`, `ClearContext`,
  `SetWatching`, `IsWatching`, `Stats`, `Count`;
* the list-then-watch cycle of the watch manager
  (internal/k8s/watcher.go, `runWatch` / `watch`): initial list hydration,
  event processing, the exponential retry backoff, and the watch-status
  flag life cycle;
* the request wire protocol (internal/server/protocol.go):
  `EncodeRequest` / `DecodeRequest` over the `Request` struct;
* the `RecentResources` recency tracker (internal/server/protocol.go):
  `Add`, `Get`, `Clear` with the per-list `maxItems` cap and the global
  `maxRecentKeys` LRU cap on scope keys.

Go maps are modelled as association lists (`List (κ × β)`) with
insert-or-replace, delete and lookup; Go slices as `List`.  Where the Go
map iteration order is unspecified the association-list order stands in
for one admissible order, and order-independent statements are phrased
via membership or permutation.
-/

namespace Kfzf

/-! ## Association-list operations (the model of Go maps) -/

section Assoc

variable {κ : Type} {β : Type} [DecidableEq κ]

/-- `m[k]` for a Go map: the value of the first entry with key `k`. -/
def lookupA (m : List (κ × β)) (k : κ) : Option β :=
  (m.find? (fun e => e.1 = k)).map (·.2)

/-- `m[k] = v` for a Go map: replace the entry in place, or append it. -/
def setA (m : List (κ × β)) (k : κ) (v : β) : List (κ × β) :=
  match m with
  | [] => [(k, v)]
  | e :: rest => if e.1 = k then (k, v) :: rest else e :: setA rest k v

/-- `delete(m, k)` for a Go map. -/
def eraseA (m : List (κ × β)) (k : κ) : List (κ × β) :=
  m.filter (fun e => e.1 ≠ k)

/-- Read-modify-write of `m[k]`, starting from `d` when the key is absent
(the `if m[k] == nil { m[k] = make(...) }` idiom). -/
def updA (m : List (κ × β)) (k : κ) (d : β) (f : β → β) : List (κ × β) :=
  setA m k (f ((lookupA m k).getD d))

@[simp] theorem lookupA_nil (k : κ) : lookupA ([] : List (κ × β)) k = none := rfl

@[simp] theorem lookupA_cons (e : κ × β) (m : List (κ × β)) (k : κ) :
    lookupA (e :: m) k = if e.1 = k then some e.2 else lookupA m k := by
  by_cases h : e.1 = k <;> simp [lookupA, List.find?, h]

theorem lookupA_setA_self (m : List (κ × β)) (k : κ) (v : β) :
    lookupA (setA m k v) k = some v := by
  induction m with
  | nil => simp [setA]
  | cons e rest ih =>
      by_cases h : e.1 = k <;> simp [setA, h, ih]

theorem lookupA_setA_ne (m : List (κ × β)) (k k' : κ) (v : β) (h : k ≠ k') :
    lookupA (setA m k v) k' = lookupA m k' := by
  induction m with
  | nil => simp [setA, h]
  | cons e rest ih =>
      by_cases he : e.1 = k
      · simp [setA, he, h]
      · simp [setA, he, ih]

theorem lookupA_updA_self (m : List (κ × β)) (k : κ) (d : β) (f : β → β) :
    lookupA (updA m k d f) k = some (f ((lookupA m k).getD d)) :=
  lookupA_setA_self ..

theorem lookupA_updA_ne (m : List (κ × β)) (k k' : κ) (d : β) (f : β → β)
    (h : k ≠ k') : lookupA (updA m k d f) k' = lookupA m k' :=
  lookupA_setA_ne _ _ _ _ h

theorem lookupA_eraseA_self (m : List (κ × β)) (k : κ) :
    lookupA (eraseA m k) k = none := by
  induction m with
  | nil => rfl
  | cons e rest ih =>
      by_cases h : e.1 = k <;> simp [eraseA, h, ih] at * <;> simp [eraseA, h, ih]

theorem lookupA_isSome_iff (m : List (κ × β)) (k : κ) :
    (lookupA m k).isSome ↔ k ∈ m.map (·.1) := by
  induction m with
  | nil => simp
  | cons e rest ih =>
      by_cases h : e.1 = k
      · simp [h]
      · simp [h, ih, Ne.symm h]

/-- `setA` only touches the key component of the entry it replaces. -/
theorem map_fst_setA (m : List (κ × β)) (k : κ) (v : β) :
    (setA m k v).map (·.1) =
      if k ∈ m.map (·.1) then m.map (·.1) else m.map (·.1) ++ [k] := by
  induction m with
  | nil => simp [setA]
  | cons e rest ih =>
      by_cases h : e.1 = k
      · simp [setA, h]
      · simp [setA, h, ih, Ne.symm h]
        by_cases hk : k ∈ rest.map (·.1) <;> simp [hk, Ne.symm h]

end Assoc

/-! ## Value trees: the model of `unstructured.Unstructured` -/

/-- An untyped Kubernetes object: a JSON-like nested value tree
(`map[string]interface{}` and friends).  Object fields are kept as an
association list, one admissible iteration order of the Go map. -/
inductive Val : Type where
  | vnull : Val
  | vbool : Bool → Val
  | vnum : Int → Val
  | vstr : String → Val
  | varr : List Val → Val
  | vobj : List (String × Val) → Val

/-- Field lookup on an object node; `none` on other nodes. -/
def Val.field : Val → String → Option Val
  | .vobj fs, k => lookupA fs k
  | _, _ => none

/-- Whether a top-level key is present on an object node. -/
def Val.hasKey (v : Val) (k : String) : Bool :=
  (v.field k).isSome

/-- The string at `path₁.path₂`, or `""` (the behaviour of
`unstructured` accessors such as `GetName`). -/
def Val.str2 (v : Val) (k₁ k₂ : String) : String :=
  match (v.field k₁).bind (·.field k₂) with
  | some (.vstr s) => s
  | _ => ""

/-- `obj.GetName()`: `.metadata.name` or `""`. -/
def getName (o : Val) : String := o.str2 "metadata" "name"

/-- `obj.GetNamespace()`: `.metadata.namespace` or `""`. -/
def getNamespace (o : Val) : String := o.str2 "metadata" "namespace"

/-- `obj.GetCreationTimestamp()`, modelled as the raw
`.metadata.creationTimestamp` value when present (the source parses it
into a `time.Time` and keeps the zero value when absent; the parse is
injective on well-formed timestamps, so the raw value is kept here). -/
def creationTimestampOf (o : Val) : Option Val :=
  (o.field "metadata").bind (·.field "creationTimestamp")

/-! ## The resource store (internal/store/store.go) -/

/-- `schema.GroupVersionResource`. -/
structure GVR where
  group : String
  version : String
  resource : String
deriving DecidableEq, Repr

/-- A cached resource (`store.Resource`). -/
structure Resource where
  Name : String
  Namespace : String
  GVR : GVR
  Object : Val
  CreationTimestamp : Option Val

/-- One namespace bucket: `name → *Resource`. -/
abbrev Bucket := List (String × Resource)

/-- `gvr → namespace → name → *Resource`. -/
abbrev GvrMap := List (GVR × List (String × Bucket))

/-- The store (`store.Store`): `context → GVR → namespace → name → *Resource`
plus the watch-status flags. -/
structure Store where
  resources : List (String × GvrMap)
  watching : List (String × List (GVR × Bool))

/-- `store.NewStore()`. -/
def Store.empty : Store := ⟨[], []⟩

/-- The `Resource` record that `Store.Add` builds for an object. -/
def mkResource (gvr : GVR) (o : Val) : Resource :=
  { Name := getName o
    Namespace := getNamespace o
    GVR := gvr
    Object := o
    CreationTimestamp := creationTimestampOf o }

/-- `Store.Add`: upsert the object under
`context → gvr → (namespace | "_cluster") → name`.  The object is stored
directly — the source applies no transformation of any kind to it. -/
def Store.Add (s : Store) (ctx : String) (gvr : GVR) (o : Val) : Store :=
  let ns := if getNamespace o = "" then "_cluster" else getNamespace o
  { s with
    resources :=
      updA s.resources ctx [] (fun gm =>
        updA gm gvr [] (fun nm =>
          updA nm ns [] (fun b => setA b (getName o) (mkResource gvr o)))) }

/-- `Store.Delete`: remove `context → gvr → (namespace | "_cluster") → name`;
a no-op when any level is absent. -/
def Store.Delete (s : Store) (ctx : String) (gvr : GVR) (ns name : String) :
    Store :=
  let nsKey := if ns = "" then "_cluster" else ns
  { s with
    resources :=
      match lookupA s.resources ctx with
      | none => s.resources
      | some gm =>
        match lookupA gm gvr with
        | none => s.resources
        | some nm =>
          match lookupA nm nsKey with
          | none => s.resources
          | some b =>
            setA s.resources ctx (setA gm gvr (setA nm nsKey (eraseA b name))) }

/-- The values of every bucket of `(ctx, gvr)`, in map order. -/
def Store.allOf (s : Store) (ctx : String) (gvr : GVR) :
    List (String × Bucket) :=
  ((lookupA s.resources ctx).bind (fun gm => lookupA gm gvr)).getD []

/-- `Store.ListNamespaced`: every bucket except `"_cluster"` when the
namespace is empty, otherwise just that bucket. -/
def Store.ListNamespaced (s : Store) (ctx : String) (gvr : GVR) (ns : String) :
    List Resource :=
  match (lookupA s.resources ctx).bind (fun gm => lookupA gm gvr) with
  | none => []
  | some nm =>
    if ns = "" then
      ((nm.filter (fun e => e.1 ≠ "_cluster")).map (fun e => e.2.map (·.2))).flatten
    else
      ((lookupA nm ns).getD []).map (·.2)

/-- `Store.Get`: the resource at
`context → gvr → (namespace | "_cluster") → name`, or a miss. -/
def Store.Get (s : Store) (ctx : String) (gvr : GVR) (ns name : String) :
    Option Resource :=
  let nsKey := if ns = "" then "_cluster" else ns
  ((lookupA s.resources ctx).bind (fun gm => lookupA gm gvr)).bind
    (fun nm => (lookupA nm nsKey).bind (fun b => lookupA b name))

/-- `Store.Clear`: drop the whole `(ctx, gvr)` subtree. -/
def Store.Clear (s : Store) (ctx : String) (gvr : GVR) : Store :=
  { s with
    resources :=
      match lookupA s.resources ctx with
      | none => s.resources
      | some gm => setA s.resources ctx (eraseA gm gvr) }

/-- `Store.ClearContext`: drop a context from both maps. -/
def Store.ClearContext (s : Store) (ctx : String) : Store :=
  { resources := eraseA s.resources ctx, watching := eraseA s.watching ctx }

/-- `Store.SetWatching`. -/
def Store.SetWatching (s : Store) (ctx : String) (gvr : GVR) (w : Bool) :
    Store :=
  { s with watching := updA s.watching ctx [] (fun wm => setA wm gvr w) }

/-- `Store.IsWatching`: `false` when either level is absent. -/
def Store.IsWatching (s : Store) (ctx : String) (gvr : GVR) : Bool :=
  match lookupA s.watching ctx with
  | none => false
  | some wm => (lookupA wm gvr).getD false

/-- Total size of one `namespace → name → resource` submap. -/
def nsMapCount (nm : List (String × Bucket)) : Nat :=
  (nm.map (fun e => e.2.length)).sum

/-- `Store.Stats`: per context, a map keyed by `gvr.Resource` — the plural
only; a later identifier with the same plural *overwrites* the count. -/
def Store.Stats (s : Store) : List (String × List (String × Nat)) :=
  s.resources.map (fun e =>
    (e.1, e.2.foldl (fun acc g => setA acc g.1.resource (nsMapCount g.2)) []))

/-- `Store.Count`: total number of stored resources. -/
def Store.Count (s : Store) : Nat :=
  (s.resources.map (fun e => (e.2.map (fun g => nsMapCount g.2)).sum)).sum

/-- `Store.List`: every bucket (including `"_cluster"`) when the namespace
is empty, otherwise the bucket for the namespace, where both `""` and
`"_cluster"` select the `"_cluster"` bucket. -/
def Store.List (s : Store) (ctx : String) (gvr : GVR) (ns : String) :
    List Resource :=
  match (lookupA s.resources ctx).bind (fun gm => lookupA gm gvr) with
  | none => []
  | some nm =>
    if ns = "" then
      (nm.map (fun e => e.2.map (·.2))).flatten
    else
      let nsKey := if ns = "_cluster" ∨ ns = "" then "_cluster" else ns
      ((lookupA nm nsKey).getD []).map (·.2)

/-- `Store.ListClusterScoped = Store.List · · "_cluster"`. -/
def Store.ListClusterScoped (s : Store) (ctx : String) (gvr : GVR) :=
  s.List ctx gvr "_cluster"

/-! ## The list-then-watch cycle (internal/k8s/watcher.go) -/

/-- One event received on the watch channel (`watch.Event`), after the
`event.Object.(*unstructured.Unstructured)` cast: events whose object is
not unstructured are skipped by the source and are not modelled. -/
inductive WEvent : Type where
  | added : Val → WEvent
  | modified : Val → WEvent
  | deleted : Val → WEvent
  | errorEv : WEvent

/-- The store transition for one drained event (`runWatch`, event loop):
`Added`/`Modified` upsert, `Deleted` removes by the event object's
namespace and name, `Error` is logged and changes nothing. -/
def stepEvent (ctx : String) (gvr : GVR) (s : Store) : WEvent → Store
  | .added o => s.Add ctx gvr o
  | .modified o => s.Add ctx gvr o
  | .deleted o => s.Delete ctx gvr (getNamespace o) (getName o)
  | .errorEv => s

/-- The hydration step of `runWatch`: clear the `(ctx, gvr)` subtree,
`Add` each listed item in order, then `SetWatching ctx gvr true`. -/
def hydrate (s : Store) (ctx : String) (gvr : GVR) (items : List Val) :
    Store :=
  ((items.foldl (fun st o => st.Add ctx gvr o) (s.Clear ctx gvr))).SetWatching
    ctx gvr true

/-- The store after one full `runWatch` cycle that listed `items` and then
drained `evs` from the watch channel. -/
def runWatchCycle (s : Store) (ctx : String) (gvr : GVR) (items : List Val)
    (evs : List WEvent) : Store :=
  evs.foldl (stepEvent ctx gvr) (hydrate s ctx gvr items)

/-- How one `runWatch` call ended.  Each constructor is one exit path of
the source function; `channelClosed` carries the events drained before the
channel closed, `cancelled*` model context cancellation observed before
hydration resp. during the event loop. -/
inductive RunOutcome : Type where
  | clientError : RunOutcome
  | listFailed : RunOutcome
  | watchOpenFailed : RunOutcome
  | channelClosed : List WEvent → RunOutcome
  | cancelledEarly : RunOutcome
  | cancelledStreaming : List WEvent → RunOutcome

/-- The error value `runWatch` returns for each exit path.  Every path of
the source returns a non-nil error: the list/watch failures and the
channel closure wrap a message, and the `ctx.Done()` branches return
`ctx.Err()`, which is non-nil once `Done` is closed. -/
def runWatchErr : RunOutcome → Option String
  | .clientError => some "failed to get client"
  | .listFailed => some "failed to list resources"
  | .watchOpenFailed => some "failed to start watch"
  | .channelClosed _ => some "watch channel closed"
  | .cancelledEarly => some "context canceled"
  | .cancelledStreaming _ => some "context canceled"

/-- Whether the outcome is a cancellation (i.e. `ctx.Err() != nil` when the
outer loop inspects the error): the outer loop then returns at once,
without sleeping. -/
def RunOutcome.isCancel : RunOutcome → Bool
  | .cancelledEarly => true
  | .cancelledStreaming _ => true
  | _ => false

/-- `maxBackoff` in seconds: `5 * time.Minute`. -/
def maxBackoffS : Nat := 300

/-- The sequence of backoff sleeps (in seconds) performed by the outer
`watch` loop, given the current backoff and the outcome of each successive
`runWatch` call.  Mirrors the loop body: a non-nil error with a live
context sleeps the current backoff and then doubles it (capped); a nil
error would reset the backoff to one second (the `else` branch of the
source) — but `runWatchErr` never returns `none`; cancellation returns
without sleeping. -/
def watchSleeps (backoff : Nat) : List RunOutcome → List Nat
  | [] => []
  | o :: rest =>
    match runWatchErr o with
    | some _ =>
      if o.isCancel then []
      else backoff :: watchSleeps (min (backoff * 2) maxBackoffS) rest
    | none => watchSleeps 1 rest

/-- The number of retries a script produces: the outcomes before the first
cancellation (each of which is followed by one backoff sleep). -/
def retryCount : List RunOutcome → Nat
  | [] => 0
  | o :: rest => if o.isCancel then 0 else retryCount rest + 1

/-- Whether a drained event is a `watch.Error` event. -/
def WEvent.isError : WEvent → Bool
  | .errorEv => true
  | _ => false

/-- "Drained at least one event without error": the claim's reset
condition for a cycle. -/
def RunOutcome.drainedOk : RunOutcome → Bool
  | .channelClosed evs => !evs.isEmpty && evs.all (fun e => !e.isError)
  | _ => false

/-! ### The watch-status flag life cycle -/

/-- The position of the watch task at an observation point of its loop. -/
inductive Phase : Type where
  | listing : Phase
  | streaming : Phase
  | backoffSleep : Phase
  | exited : Phase
deriving DecidableEq, Repr

/-- Task state threaded through the cycles: the watch-status flag of the
task's `(endpoint, resource-id)` key, whether some initial list hydration
has completed since the task started, and whether the goroutine has
returned (running `cleanupWatch`). -/
structure TaskState where
  flag : Bool
  hydrated : Bool
  exited : Bool
deriving DecidableEq, Repr

/-- A fresh task: no hydration yet, flag clear, goroutine running. -/
def TaskState.start : TaskState := ⟨false, false, false⟩

/-- Observation points and state change of one `runWatch` call.  Each
emitted pair is `(phase, flag at that moment)`:

* every cycle starts with the initial list (`listing`);
* `watchOpenFailed` and `channelClosed` complete hydration first, which
  sets the flag (`SetWatching true`); the store subtree is cleared and
  repopulated, but `Store.Clear` does not touch the flag;
* each drained event is processed in `streaming`;
* a non-cancellation error is followed by the backoff sleep
  (`backoffSleep`) with the flag *unchanged*;
* cancellation runs `cleanupWatch`, which clears the flag (`exited`). -/
def cycleObs (st : TaskState) : RunOutcome → List (Phase × Bool) × TaskState
  | .clientError =>
      ([(.listing, st.flag), (.backoffSleep, st.flag)], st)
  | .listFailed =>
      ([(.listing, st.flag), (.backoffSleep, st.flag)], st)
  | .watchOpenFailed =>
      ([(.listing, st.flag), (.backoffSleep, true)],
        { st with flag := true, hydrated := true })
  | .channelClosed evs =>
      ([(.listing, st.flag)] ++ evs.map (fun _ => (Phase.streaming, true))
          ++ [(.backoffSleep, true)],
        { st with flag := true, hydrated := true })
  | .cancelledEarly =>
      ([(.exited, false)], { st with flag := false, exited := true })
  | .cancelledStreaming evs =>
      ([(.listing, st.flag)] ++ evs.map (fun _ => (Phase.streaming, true))
          ++ [(.exited, false)],
        { st with flag := false, hydrated := true, exited := true })

/-- Run a script of cycle outcomes from a task state, collecting all
observation points; a cancellation terminates the task (the source loop
returns and later outcomes do not occur). -/
def taskRun (st : TaskState) : List RunOutcome → List (Phase × Bool)
  | [] => []
  | o :: rest =>
    if (cycleObs st o).2.exited then (cycleObs st o).1
    else (cycleObs st o).1 ++ taskRun (cycleObs st o).2 rest

/-- The task state after a script of cycle outcomes. -/
def taskState (st : TaskState) : List RunOutcome → TaskState
  | [] => st
  | o :: rest =>
    if (cycleObs st o).2.exited then (cycleObs st o).2
    else taskState (cycleObs st o).2 rest

/-! ## The recency tracker (internal/server/protocol.go, `RecentResources`) -/

/-- `maxRecentKeys = 100`. -/
def maxRecentKeys : Nat := 100

/-- `RecentResources`: per scope key a most-recent-first name list, and the
scope-key order list used for LRU eviction. -/
structure RecentResources where
  maxItems : Nat
  maxKeys : Nat
  items : List (String × List String)
  keyOrder : List String
deriving DecidableEq, Repr

/-- `NewRecentResources(max)`. -/
def newRecentResources (max : Nat) : RecentResources :=
  ⟨max, maxRecentKeys, [], []⟩

/-- The scope key `context + "/" + namespace + "/" + resourceType`. -/
def scopeKey (ctx ns rt : String) : String := ctx ++ "/" ++ ns ++ "/" ++ rt

/-- `moveKeyToEnd`: shift the key's entry out and place the key last; the
source loop is a no-op when the key is absent from the order list. -/
def moveKeyToEnd (l : List String) (key : String) : List String :=
  if key ∈ l then l.erase key ++ [key] else l

/-- `RecentResources.Add`.  The per-key list update (remove the existing
occurrence, insert at the front — both the capacity-reuse and the
reallocation branch of the source produce this — then trim to `maxItems`)
is `take maxItems (name :: list.erase name)`.  A new key is appended to
the order list, evicting the key at index 0 (and its item list) when the
order list is already at `maxKeys`; an existing key is moved to the end. -/
def RecentResources.Add (r : RecentResources) (ctx ns rt name : String) :
    RecentResources :=
  let key := scopeKey ctx ns rt
  let list := List.take r.maxItems
    (name :: ((lookupA r.items key).getD []).erase name)
  if (lookupA r.items key).isSome then
    { r with items := setA r.items key list
             keyOrder := moveKeyToEnd r.keyOrder key }
  else if r.maxKeys ≤ r.keyOrder.length then
    { r with items := eraseA (setA r.items key list) (r.keyOrder.headD "")
             keyOrder := r.keyOrder.tail ++ [key] }
  else
    { r with items := setA r.items key list
             keyOrder := r.keyOrder ++ [key] }

/-- `RecentResources.Get`: a copy of the key's list, or `nil`. -/
def RecentResources.Get (r : RecentResources) (ctx ns rt : String) :
    List String :=
  (lookupA r.items (scopeKey ctx ns rt)).getD []

/-- `RecentResources.Clear`. -/
def RecentResources.Clear (r : RecentResources) : RecentResources :=
  { r with items := [], keyOrder := [] }

/-- A public operation on the tracker, for stating invariants over
arbitrary call sequences. -/
inductive ROp : Type where
  | add : String → String → String → String → ROp
  | get : String → String → String → ROp
  | clear : ROp

/-- Apply one operation (`Get` reads and does not change the state). -/
def stepROp (r : RecentResources) : ROp → RecentResources
  | .add ctx ns rt name => r.Add ctx ns rt name
  | .get _ _ _ => r
  | .clear => r.Clear

/-- The tracker after a sequence of public operations. -/
def runROps (r : RecentResources) (ops : List ROp) : RecentResources :=
  ops.foldl stepROp r

/-- The scope keys of the `add` calls, accumulated from `acc`; a `clear`
resets the accumulator. -/
def addKeysAcc (acc : List String) (ops : List ROp) : List String :=
  ops.foldl
    (fun acc op =>
      match op with
      | .add ctx ns rt _ => acc ++ [scopeKey ctx ns rt]
      | .get _ _ _ => acc
      | .clear => [])
    acc

/-- The scope keys of the `add` calls since the last `clear`, in call
order. -/
def addKeysSinceClear (ops : List ROp) : List String :=
  addKeysAcc [] ops

/-! ## The request wire protocol (internal/server/protocol.go) -/

/-- A client request (`server.Request`).  `RequestType` is a string type;
`ns` models the `namespace` field. -/
structure Request where
  type : String
  context : String
  ns : String
  resourceType : String
  podName : String
  fieldName : String
  resourceTypes : List String
  resourceName : String
deriving DecidableEq, Repr

/-- A JSON value as it appears in an encoded request: every field of
`Request` is a string or a string slice. -/
inductive JVal : Type where
  | jstr : String → JVal
  | jarr : List String → JVal
deriving DecidableEq, Repr

/-- `json.Marshal` on `Request`, at the level of the produced JSON object:
the `type` field is always emitted; every other field carries `omitempty`
and is emitted only when it is not the zero value ( `""` resp. an empty
slice). -/
def encodeRequestObj (r : Request) : List (String × JVal) :=
  [("type", JVal.jstr r.type)]
    ++ (if r.context = "" then [] else [("context", JVal.jstr r.context)])
    ++ (if r.ns = "" then [] else [("namespace", JVal.jstr r.ns)])
    ++ (if r.resourceType = "" then []
        else [("resource_type", JVal.jstr r.resourceType)])
    ++ (if r.podName = "" then [] else [("pod_name", JVal.jstr r.podName)])
    ++ (if r.fieldName = "" then []
        else [("field_name", JVal.jstr r.fieldName)])
    ++ (if r.resourceTypes = [] then []
        else [("resource_types", JVal.jarr r.resourceTypes)])
    ++ (if r.resourceName = "" then []
        else [("resource_name", JVal.jstr r.resourceName)])

/-- Read a string field the way `json.Unmarshal` fills a `string` member:
the JSON string when the key maps to one, the zero value `""` when the key
is absent. -/
def jGetStr (fields : List (String × JVal)) (k : String) : String :=
  match lookupA fields k with
  | some (JVal.jstr s) => s
  | _ => ""

/-- Read a string-slice field: the array when present, `nil` (modelled as
`[]`) when absent. -/
def jGetArr (fields : List (String × JVal)) (k : String) : List String :=
  match lookupA fields k with
  | some (JVal.jarr xs) => xs
  | _ => []

/-- `json.Unmarshal` into `Request`, at the level of the JSON object: each
struct member is filled from its tagged key, missing keys leave the zero
value. -/
def decodeRequestObj (fields : List (String × JVal)) : Request :=
  { type := jGetStr fields "type"
    context := jGetStr fields "context"
    ns := jGetStr fields "namespace"
    resourceType := jGetStr fields "resource_type"
    podName := jGetStr fields "pod_name"
    fieldName := jGetStr fields "field_name"
    resourceTypes := jGetArr fields "resource_types"
    resourceName := jGetStr fields "resource_name" }

/-! ## Specification-side functions and concrete inputs

The functions below state spec-level properties; they are compared with
the embedded operations in the theorems.  The concrete values are the
inputs of the counterexamples and witnesses. -/

/-- First-occurrence-keeping de-duplication. -/
def dedupF : List String → List String
  | [] => []
  | x :: l => x :: (dedupF l).filter (fun y => y ≠ x)

/-- Last-occurrence-stable de-duplication (the spec's phrase): keep each
element once, at the relative position of its last occurrence. -/
def dedupL (l : List String) : List String := (dedupF l.reverse).reverse

/-- The suffix of at most `n` elements. -/
def takeLast (n : Nat) (l : List String) : List String :=
  (l.reverse.take n).reverse

/-- The spec's sum for claim C3: `Σ_e Σ_{r present under e} stats[e][r.plural]`,
over every endpoint and every resource identifier present in the store. -/
def claimSumC3 (s : Store) : Nat :=
  (s.resources.map (fun e =>
    (e.2.map (fun g =>
      (lookupA ((lookupA s.Stats e.1).getD []) g.1.resource).getD 0)).sum)).sum

/-- All objects stored under `(ctx, gvr)`, across every bucket. -/
def storedObjects (s : Store) (ctx : String) (gvr : GVR) : List Val :=
  ((s.allOf ctx gvr).map (fun e => e.2.map (fun nb => nb.2.Object))).flatten

/-- The objects of the `Added` and `Modified` events of a drain. -/
def eventObjects (evs : List WEvent) : List Val :=
  evs.filterMap (fun e =>
    match e with
    | .added o => some o
    | .modified o => some o
    | .deleted _ => none
    | .errorEv => none)

/-- The sleep sequence claim C2 predicts: as the code, except that a cycle
that drained at least one event without an `Error` event resets the
backoff to the initial 1 second, so that the next sleep is 1 second
again. -/
def claimSleepsC2 (backoff : Nat) : List RunOutcome → List Nat
  | [] => []
  | o :: rest =>
    if o.isCancel then []
    else if o.drainedOk then backoff :: claimSleepsC2 1 rest
    else backoff :: claimSleepsC2 (min (backoff * 2) maxBackoffS) rest

/-- A minimal namespaced object (`metadata.name` / `metadata.namespace`). -/
def mkObj (ns n : String) : Val :=
  .vobj [("metadata", .vobj [("name", .vstr n), ("namespace", .vstr ns)])]

/-- A config-map-shaped object carrying the large fields that the spec
says are pruned: top-level `data`, `metadata.managedFields` and the
last-applied-configuration annotation. -/
def cmObj : Val :=
  .vobj
    [("metadata",
        .vobj
          [("name", .vstr "cm1"), ("namespace", .vstr "default"),
            ("managedFields", .varr [.vobj [("manager", .vstr "kubectl")]]),
            ("annotations",
              .vobj
                [("kubectl.kubernetes.io/last-applied-configuration",
                    .vstr "{}")])]),
      ("data", .vobj [("key", .vstr "value")])]

/-- The `configmaps` resource identifier. -/
def cmGvr : GVR := ⟨"", "v1", "configmaps"⟩

/-- `deployments.apps`. -/
def gvrDeployApps : GVR := ⟨"apps", "v1", "deployments"⟩

/-- `deployments.extensions`: a second identifier with the same plural. -/
def gvrDeployExt : GVR := ⟨"extensions", "v1beta1", "deployments"⟩

/-- A store holding one `deployments.apps` object and two
`deployments.extensions` objects under the same endpoint: the two
identifiers share the plural `deployments`, so one `Stats` entry
overwrites the other. -/
def c3Store : Store :=
  ((Store.empty.Add "e" gvrDeployApps (mkObj "d" "x")).Add "e" gvrDeployExt
      (mkObj "d" "y")).Add "e" gvrDeployExt (mkObj "d" "z")

/-- A store with two identifiers with distinct plurals, for the witness. -/
def c3StoreW : Store :=
  (Store.empty.Add "e" gvrDeployApps (mkObj "d" "x")).Add "e"
    ⟨"", "v1", "pods"⟩ (mkObj "d" "y")

/-- A watch script: one failed list, then a cycle that drains one `Added`
event without error before its channel closes, then two more failures. -/
def c2Script : List RunOutcome :=
  [.listFailed, .channelClosed [.added (mkObj "d" "p")], .listFailed,
    .listFailed]

/-! ## Further association-list lemmas -/

section AssocLemmas

variable {κ : Type} {β : Type} [DecidableEq κ]

theorem lookupA_append (m₁ m₂ : List (κ × β)) (k : κ) :
    lookupA (m₁ ++ m₂) k = (lookupA m₁ k).or (lookupA m₂ k) := by
  induction m₁ with
  | nil => simp
  | cons e rest ih => by_cases h : e.1 = k <;> simp [h, ih]

theorem lookupA_ite (P : Prop) [Decidable P] (a b : List (κ × β)) (k : κ) :
    lookupA (if P then a else b) k =
      if P then lookupA a k else lookupA b k :=
  apply_ite (lookupA · k) P a b

theorem mem_setA {m : List (κ × β)} {k : κ} {v : β} {e : κ × β} :
    e ∈ setA m k v → e = (k, v) ∨ e ∈ m := by
  induction m with
  | nil => intro h; simpa [setA] using h
  | cons e' rest ih =>
      intro h
      by_cases he : e'.1 = k
      · simp only [setA, if_pos he, List.mem_cons] at h
        rcases h with h | h
        · exact Or.inl h
        · exact Or.inr (List.mem_cons_of_mem _ h)
      · simp only [setA, if_neg he, List.mem_cons] at h
        rcases h with h | h
        · exact Or.inr (h ▸ List.mem_cons_self _ _)
        · rcases ih h with h | h
          · exact Or.inl h
          · exact Or.inr (List.mem_cons_of_mem _ h)

theorem mem_of_lookupA_eq_some {m : List (κ × β)} {k : κ} {v : β}
    (h : lookupA m k = some v) : (k, v) ∈ m := by
  induction m with
  | nil => simp at h
  | cons e rest ih =>
      by_cases he : e.1 = k
      · simp only [lookupA_cons, if_pos he] at h
        obtain ⟨k', v'⟩ := e
        obtain rfl : k' = k := he
        obtain rfl : v' = v := by simpa using h
        exact List.mem_cons_self _ _
      · simp only [lookupA_cons, if_neg he] at h
        exact List.mem_cons_of_mem _ (ih h)

theorem mem_eraseA {m : List (κ × β)} {k : κ} {e : κ × β}
    (h : e ∈ eraseA m k) : e ∈ m :=
  List.mem_of_mem_filter h

end AssocLemmas

/-! ## C7: insert-then-get round trip -/

/-- **C7.** After `Add`, `Get` at the object's namespace and name returns
the stored entry, whose `Object` is the inserted object; `Add` buckets an
empty namespace under `"_cluster"` and `Get` maps an empty namespace
argument to `"_cluster"`, so the round trip also holds for
endpoint-scoped objects. -/
theorem c7_insert_get_roundtrip (s : Store) (ctx : String) (gvr : GVR)
    (o : Val) :
    (s.Add ctx gvr o).Get ctx gvr (getNamespace o) (getName o) =
      some (mkResource gvr o) := by
  by_cases h : getNamespace o = "" <;>
    simp [Store.Add, Store.Get, h, lookupA_updA_self, lookupA_setA_self]

/-! ## C8: request encode-then-decode round trip -/

/-- **C8.** Decoding the JSON object produced by encoding a request yields
the request back, on every field: the `omitempty` fields are emitted
exactly when non-zero, and `json.Unmarshal` fills absent keys with the
zero value. -/
theorem c8_request_roundtrip (r : Request) :
    decodeRequestObj (encodeRequestObj r) = r := by
  obtain ⟨t, c, n, rt, p, f, rts, rn⟩ := r
  have lift : ∀ k : String,
      lookupA (encodeRequestObj ⟨t, c, n, rt, p, f, rts, rn⟩) k =
        ((((((((lookupA [("type", JVal.jstr t)] k).or
          (lookupA (if c = "" then [] else [("context", JVal.jstr c)]) k)).or
          (lookupA (if n = "" then [] else [("namespace", JVal.jstr n)]) k)).or
          (lookupA (if rt = "" then []
            else [("resource_type", JVal.jstr rt)]) k)).or
          (lookupA (if p = "" then [] else [("pod_name", JVal.jstr p)]) k)).or
          (lookupA (if f = "" then []
            else [("field_name", JVal.jstr f)]) k)).or
          (lookupA (if rts = [] then []
            else [("resource_types", JVal.jarr rts)]) k)).or
          (lookupA (if rn = "" then []
            else [("resource_name", JVal.jstr rn)]) k)) := by
    intro k
    simp only [encodeRequestObj, lookupA_append, Option.or_assoc,
      lookupA_cons, lookupA_nil]
  simp only [decodeRequestObj, Request.mk.injEq, jGetStr, jGetArr, lift]
  refine ⟨by simp, ?_, ?_, ?_, ?_, ?_, ?_, ?_⟩
  · by_cases h : c = "" <;> simp [h, lookupA_ite]
  · by_cases h : n = "" <;> simp [h, lookupA_ite]
  · by_cases h : rt = "" <;> simp [h, lookupA_ite]
  · by_cases h : p = "" <;> simp [h, lookupA_ite]
  · by_cases h : f = "" <;> simp [h, lookupA_ite]
  · by_cases h : rts = [] <;> simp [h, lookupA_ite]
  · by_cases h : rn = "" <;> simp [h, lookupA_ite]

/-! ## C6 / C10: the two listing operations -/

/-- **C6.** `ListNamespaced` with an empty namespace returns exactly the
union of the namespace buckets of `(endpoint, resource-id)` *excluding*
the `"_cluster"` bucket (order unspecified, stated as membership), and
with a non-empty namespace exactly the objects of that bucket. -/
theorem c6_listNamespaced_buckets (s : Store) (ctx : String) (gvr : GVR) :
    (∀ r : Resource,
        r ∈ s.ListNamespaced ctx gvr "" ↔
          ∃ ns b, (ns, b) ∈ s.allOf ctx gvr ∧ ns ≠ "_cluster" ∧
            ∃ n, (n, r) ∈ b) ∧
    (∀ ns : String, ns ≠ "" → ∀ r : Resource,
        r ∈ s.ListNamespaced ctx gvr ns ↔
          ∃ n, (n, r) ∈ (lookupA (s.allOf ctx gvr) ns).getD []) := by
  constructor
  · intro r
    rcases hm : (lookupA s.resources ctx).bind (fun gm => lookupA gm gvr) with
      _ | nm
    · simp [Store.ListNamespaced, Store.allOf, hm]
    · simp only [Store.ListNamespaced, Store.allOf, hm, Option.getD_some,
        if_true]
      simp only [List.mem_flatten, List.mem_map, List.mem_filter]
      constructor
      · rintro ⟨_, ⟨⟨ns, b⟩, ⟨hb, hns⟩, rfl⟩, hr⟩
        rcases List.mem_map.mp hr with ⟨⟨n, r'⟩, hmem, rfl⟩
        exact ⟨ns, b, hb, by simpa using hns, n, hmem⟩
      · rintro ⟨ns, b, hb, hns, n, hn⟩
        exact ⟨b.map (·.2), ⟨⟨ns, b⟩, ⟨hb, by simpa using hns⟩, rfl⟩,
          List.mem_map.mpr ⟨(n, r), hn, rfl⟩⟩
  · intro ns hns r
    rcases hm : (lookupA s.resources ctx).bind (fun gm => lookupA gm gvr) with
      _ | nm
    · simp [Store.ListNamespaced, Store.allOf, hm]
    · simp only [Store.ListNamespaced, Store.allOf, hm, Option.getD_some,
        if_neg hns]
      constructor
      · intro hr
        rcases List.mem_map.mp hr with ⟨⟨n, r'⟩, hmem, rfl⟩
        exact ⟨n, hmem⟩
      · rintro ⟨n, hn⟩
        exact List.mem_map.mpr ⟨(n, r), hn, rfl⟩

/-- **C10.** `List` with an empty namespace returns the union of *every*
bucket of `(endpoint, resource-id)`, including `"_cluster"`;
`ListClusterScoped` delegates to `List · · "_cluster"`, which returns
exactly the `"_cluster"` bucket. -/
theorem c10_list_all_buckets (s : Store) (ctx : String) (gvr : GVR) :
    (∀ r : Resource,
        r ∈ s.List ctx gvr "" ↔
          ∃ ns b, (ns, b) ∈ s.allOf ctx gvr ∧ ∃ n, (n, r) ∈ b) ∧
    s.ListClusterScoped ctx gvr = s.List ctx gvr "_cluster" ∧
    (∀ r : Resource,
        r ∈ s.List ctx gvr "_cluster" ↔
          ∃ n, (n, r) ∈ (lookupA (s.allOf ctx gvr) "_cluster").getD []) := by
  refine ⟨?_, rfl, ?_⟩
  · intro r
    rcases hm : (lookupA s.resources ctx).bind (fun gm => lookupA gm gvr) with
      _ | nm
    · simp [Store.List, Store.allOf, hm]
    · simp only [Store.List, Store.allOf, hm, Option.getD_some, if_true]
      simp only [List.mem_flatten, List.mem_map]
      constructor
      · rintro ⟨_, ⟨⟨ns, b⟩, hb, rfl⟩, hr⟩
        rcases List.mem_map.mp hr with ⟨⟨n, r'⟩, hmem, rfl⟩
        exact ⟨ns, b, hb, n, hmem⟩
      · rintro ⟨ns, b, hb, n, hn⟩
        exact ⟨b.map (·.2), ⟨⟨ns, b⟩, hb, rfl⟩,
          List.mem_map.mpr ⟨(n, r), hn, rfl⟩⟩
  · intro r
    rcases hm : (lookupA s.resources ctx).bind (fun gm => lookupA gm gvr) with
      _ | nm
    · simp [Store.List, Store.allOf, hm]
    · simp only [Store.List, Store.allOf, hm, Option.getD_some, if_false,
        if_true, true_or, or_false]
      constructor
      · intro hr
        rcases List.mem_map.mp hr with ⟨⟨n, r'⟩, hmem, rfl⟩
        exact ⟨n, hmem⟩
      · rintro ⟨n, hn⟩
        exact List.mem_map.mpr ⟨(n, r), hn, rfl⟩

/-- The second conjunct of C6 at a concrete input (witness for the
non-empty-namespace hypothesis). -/
theorem c6_listNamespaced_buckets_witness :
    ∀ r : Resource,
      r ∈ c3Store.ListNamespaced "e" gvrDeployApps "d" ↔
        ∃ n, (n, r) ∈ (lookupA (c3Store.allOf "e" gvrDeployApps) "d").getD [] :=
  (c6_listNamespaced_buckets c3Store "e" gvrDeployApps).2 "d" (by decide)

/-! ## C1: no pruning happens before storage -/

/-- `SetWatching` leaves the resource index untouched. -/
theorem storedObjects_setWatching (s : Store) (c c' : String) (g g' : GVR)
    (w : Bool) :
    storedObjects (s.SetWatching c g w) c' g' = storedObjects s c' g' := rfl

/-- The bucket map `Store.Add` starts from is exactly `allOf`. -/
theorem allOf_eq_getD (s : Store) (c : String) (g : GVR) :
    s.allOf c g =
      (lookupA ((lookupA s.resources c).getD []) g).getD [] := by
  rcases h : lookupA s.resources c with _ | gm <;> simp [Store.allOf, h]

/-- Everything stored under `(c, g)` after an `Add` is either the added
object or was stored before: `Add` inserts the object verbatim. -/
theorem mem_storedObjects_add {s : Store} {c : String} {g : GVR} {o x : Val} :
    x ∈ storedObjects (s.Add c g o) c g → x = o ∨ x ∈ storedObjects s c g := by
  intro hx
  have hall : (s.Add c g o).allOf c g =
      updA (s.allOf c g) (if getNamespace o = "" then "_cluster"
          else getNamespace o) []
        (fun b => setA b (getName o) (mkResource g o)) := by
    rw [show s.allOf c g =
          (lookupA ((lookupA s.resources c).getD []) g).getD [] from
        allOf_eq_getD ..,
      show (s.Add c g o).allOf c g =
          (lookupA ((lookupA (s.Add c g o).resources c).getD []) g).getD []
        from allOf_eq_getD ..]
    simp [Store.Add, lookupA_updA_self, updA, lookupA_setA_self]
  rw [storedObjects, hall] at hx
  rcases List.mem_flatten.mp hx with ⟨l, hl, hxl⟩
  rcases List.mem_map.mp hl with ⟨⟨ns', b'⟩, hb', rfl⟩
  rcases mem_setA hb' with he | he
  · obtain ⟨-, hb2⟩ := Prod.mk.injEq .. ▸ he
    subst hb2
    rcases List.mem_map.mp hxl with ⟨⟨n, res⟩, hres, rfl⟩
    rcases mem_setA hres with hr | hr
    · left
      obtain ⟨-, hr2⟩ := Prod.mk.injEq .. ▸ hr
      subst hr2
      rfl
    · right
      rcases hb : lookupA (s.allOf c g)
          (if getNamespace o = "" then "_cluster" else getNamespace o) with
        _ | b₀
      · rw [hb] at hr; simp at hr
      · rw [hb] at hr
        exact List.mem_flatten.mpr
          ⟨b₀.map (fun nb => nb.2.Object),
            List.mem_map.mpr ⟨(_, b₀), mem_of_lookupA_eq_some hb, rfl⟩,
            List.mem_map.mpr ⟨(n, res), hr, rfl⟩⟩
  · right
    exact List.mem_flatten.mpr
      ⟨b'.map (fun nb => nb.2.Object), List.mem_map.mpr ⟨(ns', b'), he, rfl⟩,
        hxl⟩

/-- `Delete` stores nothing new. -/
theorem mem_storedObjects_delete {s : Store} {c : String} {g : GVR}
    {ns n : String} {x : Val} :
    x ∈ storedObjects (s.Delete c g ns n) c g → x ∈ storedObjects s c g := by
  intro hx
  simp only [Store.Delete] at hx
  split at hx
  · exact hx
  rename_i gm h1
  split at hx
  · exact hx
  rename_i nm h2
  split at hx
  · exact hx
  rename_i b h3
  have hall : s.allOf c g = nm := by simp [Store.allOf, h1, h2]
  have hall' :
      (Store.mk
          (setA s.resources c
            (setA gm g
              (setA nm (if ns = "" then "_cluster" else ns) (eraseA b n))))
          s.watching).allOf c g =
        setA nm (if ns = "" then "_cluster" else ns) (eraseA b n) := by
    simp [Store.allOf, lookupA_setA_self]
  rw [storedObjects, hall'] at hx
  rw [storedObjects, hall]
  rcases List.mem_flatten.mp hx with ⟨l, hl, hxl⟩
  rcases List.mem_map.mp hl with ⟨⟨ns', b'⟩, hb', rfl⟩
  rcases mem_setA hb' with he | he
  · obtain ⟨-, hb2⟩ := Prod.mk.injEq .. ▸ he
    subst hb2
    rcases List.mem_map.mp hxl with ⟨⟨n', res⟩, hres, rfl⟩
    exact List.mem_flatten.mpr
      ⟨b.map (fun nb => nb.2.Object),
        List.mem_map.mpr ⟨(_, b), mem_of_lookupA_eq_some h3, rfl⟩,
        List.mem_map.mpr ⟨(n', res), mem_eraseA hres, rfl⟩⟩
  · exact List.mem_flatten.mpr
      ⟨b'.map (fun nb => nb.2.Object), List.mem_map.mpr ⟨(ns', b'), he, rfl⟩,
        hxl⟩

/-- `Clear` empties the `(c, g)` subtree. -/
theorem storedObjects_clear (s : Store) (c : String) (g : GVR) :
    storedObjects (s.Clear c g) c g = [] := by
  unfold Store.Clear
  rcases h1 : lookupA s.resources c with _ | gm
  · simp [storedObjects, Store.allOf, h1]
  · simp [storedObjects, Store.allOf, lookupA_setA_self, lookupA_eraseA_self]

/-- Folding `Add` over a list stores only listed objects (besides what
was already there). -/
theorem mem_storedObjects_foldl_add {c : String} {g : GVR} {x : Val} :
    ∀ (items : List Val) (s₀ : Store),
      x ∈ storedObjects (items.foldl (fun st o => st.Add c g o) s₀) c g →
        x ∈ items ∨ x ∈ storedObjects s₀ c g := by
  intro items
  induction items with
  | nil => intro s₀ h; exact Or.inr h
  | cons o rest ih =>
      intro s₀ h
      rcases ih (s₀.Add c g o) h with h' | h'
      · exact Or.inl (List.mem_cons_of_mem _ h')
      · rcases mem_storedObjects_add h' with h'' | h''
        · exact Or.inl (h'' ▸ List.mem_cons_self _ _)
        · exact Or.inr h''

/-- Folding the event processor stores only `Added`/`Modified` objects
(besides what was already there). -/
theorem mem_storedObjects_foldl_events {c : String} {g : GVR} {x : Val} :
    ∀ (evs : List WEvent) (s₀ : Store),
      x ∈ storedObjects (evs.foldl (stepEvent c g) s₀) c g →
        x ∈ eventObjects evs ∨ x ∈ storedObjects s₀ c g := by
  intro evs
  induction evs with
  | nil => intro s₀ h; exact Or.inr h
  | cons e rest ih =>
      intro s₀ h
      rcases ih (stepEvent c g s₀ e) h with h' | h'
      · exact Or.inl (by simp [eventObjects] at h' ⊢; tauto)
      · cases e with
        | added o =>
            rcases mem_storedObjects_add h' with h'' | h''
            · exact Or.inl (by simp [eventObjects, h''])
            · exact Or.inr h''
        | modified o =>
            rcases mem_storedObjects_add h' with h'' | h''
            · exact Or.inl (by simp [eventObjects, h''])
            · exact Or.inr h''
        | deleted o => exact Or.inr (mem_storedObjects_delete h')
        | errorEv => exact Or.inr h'

/-- **C1, counterexample.**  A config map carrying a top-level `data`
field, the `metadata.managedFields` list and the
last-applied-configuration annotation is hydrated through the
list-then-watch cycle; the stored object still carries all three fields —
no pruner ran.  (The source `runWatch` passes listed objects and event
objects to `Store.Add` unchanged, and `Store.Add` stores them verbatim;
the claim's "these fields are absent from the stored object" is false.) -/
theorem c1_counterexample :
    ((runWatchCycle Store.empty "prod" cmGvr [cmObj] []).Get "prod" cmGvr
          "default" "cm1").map
        (fun r =>
          (r.Object.hasKey "data",
            ((r.Object.field "metadata").getD .vnull).hasKey "managedFields",
            (((r.Object.field "metadata").getD .vnull).field
                  "annotations").map
              (fun a =>
                a.hasKey "kubectl.kubernetes.io/last-applied-configuration"))) =
      some (true, true, some true) := by
  rfl

/-- **C1, amended.**  The watch manager applies no pruning: every object
stored under `(endpoint, resource-id)` after a list-then-watch cycle is
*verbatim* one of the listed objects or one of the `Added`/`Modified`
event objects — in particular every field of the original object,
including `data`, `metadata.managedFields`, `spec.volumes` and the
container sub-fields, is still present on the stored object. -/
theorem c1_stored_objects_verbatim (s : Store) (c : String) (g : GVR)
    (items : List Val) (evs : List WEvent) (x : Val)
    (hx : x ∈ storedObjects (runWatchCycle s c g items evs) c g) :
    x ∈ items ∨ x ∈ eventObjects evs := by
  rcases mem_storedObjects_foldl_events evs _ hx with h | h
  · exact Or.inr h
  · rw [hydrate, storedObjects_setWatching] at h
    rcases mem_storedObjects_foldl_add items _ h with h' | h'
    · exact Or.inl h'
    · rw [storedObjects_clear] at h'
      simp at h'

/-- Witness for C1's amended theorem: at the concrete hydration input the
membership hypothesis holds and the stored config map is one of the
listed objects. -/
theorem c1_stored_objects_verbatim_witness :
    cmObj ∈ storedObjects (runWatchCycle Store.empty "prod" cmGvr [cmObj] [])
        "prod" cmGvr ∧
      (cmObj ∈ [cmObj] ∨ cmObj ∈ eventObjects []) :=
  have hmem :
      cmObj ∈ storedObjects (runWatchCycle Store.empty "prod" cmGvr [cmObj] [])
        "prod" cmGvr :=
    show cmObj ∈ [cmObj] by simp
  ⟨hmem,
    c1_stored_objects_verbatim Store.empty "prod" cmGvr [cmObj] [] cmObj hmem⟩

/-! ## C2: the retry backoff -/

/-- Composing the doubling-with-cap step with the closed form. -/
theorem min_double_pow (b i : Nat) :
    min (min (b * 2) maxBackoffS * 2 ^ i) maxBackoffS =
      min (b * 2 ^ (i + 1)) maxBackoffS := by
  rcases le_or_lt (b * 2) maxBackoffS with h | h
  · rw [min_eq_left h, pow_succ]
    ring_nf
  · have h1 : maxBackoffS ≤ maxBackoffS * 2 ^ i :=
      Nat.le_mul_of_pos_right _ (Nat.pos_pow_of_pos _ (by norm_num))
    have h2 : maxBackoffS ≤ b * 2 ^ (i + 1) := by
      have hp : (2 : Nat) ≤ 2 ^ (i + 1) := by
        calc (2 : Nat) = 2 ^ 1 := (pow_one 2).symm
          _ ≤ 2 ^ (i + 1) := Nat.pow_le_pow_right (by norm_num) (by omega)
      have := Nat.mul_le_mul_left b hp
      omega
    rw [min_eq_right h.le, min_eq_right h1, min_eq_right h2]

/-- `runWatch` never returns a nil error. -/
theorem runWatchErr_isSome (o : RunOutcome) : (runWatchErr o).isSome := by
  cases o <;> rfl

/-- Closed form of the backoff sleeps for an arbitrary starting backoff
below the cap: every cycle ends in an error, so the `i`-th sleep is
`min (backoff · 2^i) maxBackoff` — the reset branch never runs. -/
theorem watchSleeps_closed (script : List RunOutcome) :
    ∀ b : Nat, b ≤ maxBackoffS →
      watchSleeps b script =
        (List.range (retryCount script)).map (fun i => min (b * 2 ^ i) maxBackoffS) := by
  induction script with
  | nil => intro b _; rfl
  | cons o rest ih =>
      intro b hb
      obtain ⟨m, hm⟩ : ∃ m, runWatchErr o = some m := by
        cases o <;> exact ⟨_, rfl⟩
      by_cases hc : o.isCancel
      · simp [watchSleeps, retryCount, hm, hc]
      · rw [watchSleeps, hm]
        rw [if_neg hc]
        rw [ih (min (b * 2) maxBackoffS) (min_le_right _ _)]
        have hrc : retryCount (o :: rest) = retryCount rest + 1 := by
          simp [retryCount, hc]
        rw [hrc, List.range_succ_eq_map]
        simp only [List.map_cons, List.map_map]
        congr 1
        · rw [pow_zero, Nat.mul_one, min_eq_left hb]
        · refine List.map_congr_left fun i _ => ?_
          simpa [Function.comp] using min_double_pow b i

/-- **C2, counterexample.**  In the script `c2Script`, cycle 1 drains one
event without any `Error` event before its channel closes; the claim then
demands a backoff reset (the predicted sleeps are `[1, 2, 1, 2]`), but the
code treats the channel closure as one more failure — `runWatch` has no
nil-error
return path — so the actual sleeps are `[1, 2, 4, 8]`: after the
successful drain the next failure sleeps 4 seconds, not 1. -/
theorem c2_counterexample :
    (c2Script.get? 1).map RunOutcome.drainedOk = some true ∧
    watchSleeps 1 c2Script = [1, 2, 4, 8] ∧
    claimSleepsC2 1 c2Script = [1, 2, 1, 2] ∧
    watchSleeps 1 c2Script ≠ claimSleepsC2 1 c2Script := by
  refine ⟨rfl, rfl, rfl, ?_⟩
  decide

/-- **C2, amended.**  The backoff starts at 1 second, is doubled after
*every* cycle and capped at 5 minutes: the sleep before the `i`-th retry
is exactly `min (2^i) 300` seconds.  The reset branch of the source
requires an error-free cycle, and `runWatch` returns an error on every
path, so the backoff never resets.  In particular the task sleeps exactly
1 second before its first retry and never more than 5 minutes before
any retry. -/
theorem c2_backoff_doubles_without_reset (script : List RunOutcome) :
    watchSleeps 1 script =
      (List.range (retryCount script)).map (fun i => min (2 ^ i) maxBackoffS) ∧
    (∀ x ∈ watchSleeps 1 script, 1 ≤ x ∧ x ≤ maxBackoffS) ∧
    (watchSleeps 1 script).head? =
      (if retryCount script = 0 then none else some 1) := by
  have hc := watchSleeps_closed script 1 (by norm_num [maxBackoffS])
  simp only [Nat.one_mul] at hc
  refine ⟨hc, ?_, ?_⟩
  · intro x hx
    rw [hc] at hx
    rcases List.mem_map.mp hx with ⟨i, -, rfl⟩
    constructor
    · exact le_min (Nat.one_le_two_pow) (by norm_num [maxBackoffS])
    · exact min_le_right _ _
  · rw [hc]
    rcases hn : retryCount script with _ | n
    · rfl
    · simp [List.range_succ_eq_map, maxBackoffS]

/-- Witness for C2's amended theorem at a concrete two-failure script. -/
theorem c2_backoff_witness :
    watchSleeps 1 [RunOutcome.listFailed, RunOutcome.listFailed] = [1, 2] := by
  rw [(c2_backoff_doubles_without_reset
    [RunOutcome.listFailed, RunOutcome.listFailed]).1]
  rfl

/-! ## C3: `count` versus the sum of `stats` -/

/-- Last write wins in the `Stats` inner fold. -/
theorem lookup_stats_foldl (gm : GvrMap) :
    ∀ (acc : List (String × Nat)) (k : String),
      lookupA
          (gm.foldl (fun acc g => setA acc g.1.resource (nsMapCount g.2)) acc)
          k =
        match gm.reverse.find? (fun g => g.1.resource = k) with
        | some g => some (nsMapCount g.2)
        | none => lookupA acc k := by
  induction gm with
  | nil => intro acc k; rfl
  | cons a rest ih =>
      intro acc k
      simp only [List.foldl_cons, List.reverse_cons]
      rw [ih]
      rcases hf : rest.reverse.find? (fun g => g.1.resource = k) with _ | g
      · rw [List.find?_append, hf]
        by_cases hk : a.1.resource = k
        · subst hk
          simp [lookupA_setA_self]
        · simp only [Option.none_or]
          rw [lookupA_setA_ne _ _ _ _ hk]
          simp [List.find?, hk]
      · rw [List.find?_append, hf]
        rfl

/-- With pairwise distinct keys, `find?` over the reversed list returns
the entry itself. -/
theorem find_reverse_of_nodup {α γ : Type} [DecidableEq γ] (fkey : α → γ) :
    ∀ (l : List α) (g : α), (l.map fkey).Nodup → g ∈ l →
      l.reverse.find? (fun x => fkey x = fkey g) = some g := by
  intro l
  induction l with
  | nil => intro g _ hg; simp at hg
  | cons a rest ih =>
      intro g hnd hg
      simp only [List.map_cons, List.nodup_cons] at hnd
      rcases List.mem_cons.mp hg with rfl | hg'
      · rw [List.reverse_cons, List.find?_append]
        have hnone : rest.reverse.find? (fun x => fkey x = fkey g) = none := by
          rw [List.find?_eq_none]
          intro x hx
          simp only [decide_eq_true_eq]
          intro hEq
          exact hnd.1 (hEq ▸ List.mem_map_of_mem fkey (List.mem_reverse.mp hx))
        rw [hnone]
        simp [List.find?]
      · rw [List.reverse_cons, List.find?_append, ih g hnd.2 hg']
        rfl

/-- Looking up a mapped association list with distinct keys. -/
theorem lookupA_map_entry {β : Type} :
    ∀ (m : List (String × GvrMap)) (f : String × GvrMap → β)
      (e : String × GvrMap),
      (m.map (·.1)).Nodup → e ∈ m →
        lookupA (m.map (fun e => (e.1, f e))) e.1 = some (f e) := by
  intro m
  induction m with
  | nil => intro f e _ he; simp at he
  | cons a rest ih =>
      intro f e hnd he
      simp only [List.map_cons, List.nodup_cons] at hnd
      rcases List.mem_cons.mp he with rfl | he'
      · simp
      · rw [List.map_cons, lookupA_cons]
        have : ¬ a.1 = e.1 := by
          intro hEq
          exact hnd.1 (hEq ▸ List.mem_map_of_mem (·.1) he')
        rw [if_neg this]
        exact ih f e hnd.2 he'

/-- **C3, counterexample.**  `c3Store` holds three objects under two
identifiers that share the plural `deployments`; the `Stats` entry of one
identifier overwrites the other's, so the claim's sum over all present
identifiers is 4 while `Count` is 3 — the claimed equality is false. -/
theorem c3_counterexample :
    c3Store.Count = 3 ∧ claimSumC3 c3Store = 4 ∧
      c3Store.Count ≠ claimSumC3 c3Store := by
  refine ⟨rfl, rfl, ?_⟩
  decide

/-- **C3, amended.**  Provided no two resource identifiers under the same
endpoint share their plural (`gvr.Resource`) — which holds for every
store the watch manager builds from distinct resource kinds — `count()`
equals the sum of `stats()[e][r.plural]` over all endpoints `e` and
identifiers `r` present in the store. -/
theorem c3_count_eq_stats_sum (s : Store)
    (hctx : (s.resources.map (·.1)).Nodup)
    (hplural : ∀ e ∈ s.resources, (e.2.map (fun g => g.1.resource)).Nodup) :
    s.Count = claimSumC3 s := by
  unfold Store.Count claimSumC3
  refine congrArg List.sum (List.map_congr_left ?_)
  intro e he
  have hstats :
      lookupA s.Stats e.1 =
        some
          (e.2.foldl (fun acc g => setA acc g.1.resource (nsMapCount g.2))
            []) :=
    lookupA_map_entry s.resources _ e hctx he
  rw [hstats, Option.getD_some]
  refine congrArg List.sum (List.map_congr_left ?_)
  intro g hg
  rw [lookup_stats_foldl,
    find_reverse_of_nodup (fun g => g.1.resource) e.2 g (hplural e he) hg]
  rfl

/-- Witness for C3's amended theorem: a store whose two identifiers have
distinct plurals satisfies both hypotheses and the equality. -/
theorem c3_count_eq_stats_sum_witness :
    c3StoreW.Count = claimSumC3 c3StoreW :=
  c3_count_eq_stats_sum c3StoreW (by decide) (by decide)

/-! ## List lemmas for the recency tracker -/

/-- On duplicate-free lists, `erase` is `filter (· ≠ x)`. -/
theorem nodup_erase_eq_filter_ne :
    ∀ (l : List String), l.Nodup → ∀ x : String,
      l.erase x = l.filter (fun y => y ≠ x) := by
  intro l
  induction l with
  | nil => intro _ x; rfl
  | cons a rest ih =>
      intro hnd x
      rcases List.nodup_cons.mp hnd with ⟨ha, hrest⟩
      by_cases hax : a = x
      · subst hax
        have hall : rest.filter (fun y => y ≠ a) = rest :=
          List.filter_eq_self.mpr fun b hb => by
            simp only [decide_eq_true_eq]
            exact fun hEq => ha (hEq ▸ hb)
        rw [List.erase_cons_head, List.filter_cons, if_neg (by simp)]
        exact hall.symm
      · rw [List.erase_cons_tail (by simpa using hax), ih hrest x,
          List.filter_cons, if_pos (by simpa using hax)]

/-- Removing one element from a duplicate-free list by `filter` loses at
most one entry. -/
theorem filter_ne_length_ge :
    ∀ (l : List String), l.Nodup → ∀ x : String,
      l.length - 1 ≤ (l.filter (fun y => y ≠ x)).length := by
  intro l
  induction l with
  | nil => intro _ x; simp
  | cons a rest ih =>
      intro hnd x
      rcases List.nodup_cons.mp hnd with ⟨ha, hrest⟩
      by_cases hax : a = x
      · subst hax
        have hall : rest.filter (fun y => y ≠ a) = rest :=
          List.filter_eq_self.mpr fun b hb => by
            simp only [decide_eq_true_eq]
            exact fun hEq => ha (hEq ▸ hb)
        rw [List.filter_cons, if_neg (by simp), hall]
        simp
      · have hih := ih hrest x
        rw [List.filter_cons, if_pos (by simpa using hax)]
        simp only [List.length_cons]
        omega

/-- `dedupF` produces a duplicate-free list. -/
theorem dedupF_nodup : ∀ l : List String, (dedupF l).Nodup := by
  intro l
  induction l with
  | nil => exact List.nodup_nil
  | cons x rest ih =>
      rw [dedupF, List.nodup_cons]
      refine ⟨fun hx => ?_, List.Nodup.filter _ ih⟩
      rcases List.mem_filter.mp hx with ⟨-, hne⟩
      simp at hne

/-- The key step of the per-list update: starting from the `maxItems`
truncation of a duplicate-free list `D`, removing `x` and re-inserting it
at the front is the truncation of the same operation on the whole `D`. -/
theorem take_insert_erase (m : Nat) (x : String) (D : List String)
    (hD : D.Nodup) :
    List.take m (x :: (List.take m D).erase x) =
      List.take m (x :: D.filter (fun y => y ≠ x)) := by
  cases m with
  | zero => simp
  | succ m' =>
      rw [List.take_succ_cons, List.take_succ_cons]
      congr 1
      have hndT : (List.take (m' + 1) D).Nodup :=
        (List.take_sublist _ _).nodup hD
      rw [nodup_erase_eq_filter_ne _ hndT x]
      rcases le_or_lt (m' + 1) D.length with hlen | hlen
      · have hsplit :
            D.filter (fun y => y ≠ x) =
              (List.take (m' + 1) D).filter (fun y => y ≠ x) ++
                (List.drop (m' + 1) D).filter (fun y => y ≠ x) := by
          rw [← List.filter_append, List.take_append_drop]
        rw [hsplit]
        have hlenf :
            m' ≤ ((List.take (m' + 1) D).filter (fun y => y ≠ x)).length := by
          have h1 := filter_ne_length_ge _ hndT x
          have h2 : (List.take (m' + 1) D).length = m' + 1 := by
            rw [List.length_take]
            omega
          omega
        rw [List.take_append_of_le_length hlenf]
      · rw [List.take_of_length_le (by omega : D.length ≤ m' + 1)]

/-! ## C4: the per-key most-recently-used list -/

/-- The tracker state after a sequence of `Add` calls on a single scope
key of a fresh tracker: one item list, which is the `maxItems`-truncation
of the first-occurrence de-duplication of the reversed input. -/
theorem c4_single_key_state (m : Nat) (ctx ns rt : String) :
    ∀ xs : List String,
      xs.foldl (fun r x => r.Add ctx ns rt x) (newRecentResources m) =
        if xs = [] then newRecentResources m
        else
          ⟨m, maxRecentKeys,
            [(scopeKey ctx ns rt, List.take m (dedupF xs.reverse))],
            [scopeKey ctx ns rt]⟩ := by
  intro xs
  induction xs using List.reverseRecOn with
  | nil => simp
  | append_singleton xs x ih =>
      rw [List.foldl_concat, ih]
      by_cases hxs : xs = []
      · subst hxs
        rw [if_pos rfl, if_neg (by simp)]
        simp [RecentResources.Add, newRecentResources, moveKeyToEnd,
          setA, maxRecentKeys, dedupF, List.erase_nil]
      · rw [if_neg hxs, if_neg (by simp [hxs])]
        have key :
            List.take m (x :: (List.take m (dedupF xs.reverse)).erase x) =
              List.take m (dedupF ((xs ++ [x]).reverse)) := by
          rw [take_insert_erase m x _ (dedupF_nodup _), List.reverse_concat,
            dedupF]
        simp only [RecentResources.Add, lookupA_cons, if_pos rfl,
          Option.isSome_some, Option.getD_some, if_true, setA,
          moveKeyToEnd, List.mem_singleton, List.erase_cons_head,
          List.nil_append]
        rw [key]

/-- **C4.** On a fresh tracker, after `add(k, x₁), …, add(k, xₙ)` on one
scope key, `get(k)` is the last-occurrence-stable de-duplication of the
input, truncated to its `maxItems`-element suffix, in reverse
(most-recently-added first). -/
theorem c4_get_mru_list (m : Nat) (ctx ns rt : String) (xs : List String) :
    (xs.foldl (fun r x => r.Add ctx ns rt x) (newRecentResources m)).Get
        ctx ns rt =
      (takeLast m (dedupL xs)).reverse := by
  have hspec : (takeLast m (dedupL xs)).reverse =
      List.take m (dedupF xs.reverse) := by
    simp [takeLast, dedupL]
  rw [c4_single_key_state, hspec]
  by_cases hxs : xs = []
  · subst hxs
    simp [RecentResources.Get, newRecentResources, dedupF]
  · rw [if_neg hxs]
    simp [RecentResources.Get]

/-! ## C5: the global LRU cap on scope keys -/

theorem dedupL_nodup (l : List String) : (dedupL l).Nodup := by
  rw [dedupL, List.nodup_reverse]
  exact dedupF_nodup _

/-- One more key appended to the history: its old occurrence is dropped
and it moves to the end of the de-duplicated order. -/
theorem dedupL_concat (l : List String) (k : String) :
    dedupL (l ++ [k]) = (dedupL l).filter (fun y => y ≠ k) ++ [k] := by
  rw [dedupL, List.reverse_concat, dedupF, List.reverse_cons,
    ← List.filter_reverse]
  rfl

theorem length_takeLast (n : Nat) (l : List String) :
    (takeLast n l).length = min n l.length := by
  simp [takeLast]

theorem takeLast_eq_self {n : Nat} {l : List String} (h : l.length ≤ n) :
    takeLast n l = l := by
  rw [takeLast, List.take_of_length_le (by simpa using h), List.reverse_reverse]

theorem takeLast_concat (n : Nat) (l : List String) (k : String) :
    takeLast (n + 1) (l ++ [k]) = takeLast n l ++ [k] := by
  rw [takeLast, List.reverse_concat, List.take_succ_cons, List.reverse_cons,
    takeLast]

theorem takeLast_nodup {l : List String} (h : l.Nodup) (n : Nat) :
    (takeLast n l).Nodup := by
  rw [takeLast, List.nodup_reverse]
  exact (List.take_sublist _ _).nodup (List.nodup_reverse.mpr h)

theorem tail_reverse (l : List String) :
    l.reverse.tail = l.dropLast.reverse := by
  induction l using List.reverseRecOn with
  | nil => rfl
  | append_singleton l a ih => rw [List.reverse_concat, List.dropLast_concat]; rfl

/-- Filtering one present element out of the length-`n` prefix of a
duplicate-free list is the length-`(n-1)` prefix of the filtered list. -/
theorem filter_take_of_mem {E : List String} (hE : E.Nodup) {n : Nat}
    (hn : 1 ≤ n) {k : String} (hk : k ∈ E.take n) :
    (E.take n).filter (fun y => y ≠ k) =
      (E.filter (fun y => y ≠ k)).take (n - 1) := by
  rcases le_or_lt n E.length with hlen | hlen
  · have hpre : (E.take n).filter (fun y => y ≠ k) <+:
        E.filter (fun y => y ≠ k) :=
      ⟨(E.drop n).filter (fun y => y ≠ k), by
        rw [← List.filter_append, List.take_append_drop]⟩
    have hndT : (E.take n).Nodup := (List.take_sublist _ _).nodup hE
    have hlt : ((E.take n).filter (fun y => y ≠ k)).length < (E.take n).length :=
      List.length_filter_lt_length_iff_exists.mpr ⟨k, hk, by simp⟩
    have hge := filter_ne_length_ge _ hndT k
    have hT : (E.take n).length = n := by rw [List.length_take]; omega
    have hlenf : ((E.take n).filter (fun y => y ≠ k)).length = n - 1 := by
      omega
    rw [List.prefix_iff_eq_take.mp hpre, hlenf]
  · rw [List.take_of_length_le hlen.le] at hk ⊢
    have hklen : (E.filter (fun y => y ≠ k)).length < E.length :=
      List.length_filter_lt_length_iff_exists.mpr ⟨k, hk, by simp⟩
    rw [List.take_of_length_le (by omega)]

/-- Move-to-end on the window: erasing a present key from the last-`n`
window equals the last-`(n-1)` window of the filtered order. -/
theorem takeLast_erase {D : List String} (hD : D.Nodup) {n : Nat}
    (hn : 1 ≤ n) {k : String} (hk : k ∈ takeLast n D) :
    (takeLast n D).erase k =
      takeLast (n - 1) (D.filter (fun y => y ≠ k)) := by
  have hE : D.reverse.Nodup := List.nodup_reverse.mpr hD
  have hkE : k ∈ D.reverse.take n := by
    rw [takeLast, List.mem_reverse] at hk
    exact hk
  have hndW : (D.reverse.take n).reverse.Nodup := by
    rw [List.nodup_reverse]
    exact (List.take_sublist _ _).nodup hE
  rw [takeLast, nodup_erase_eq_filter_ne _ hndW k, List.filter_reverse,
    filter_take_of_mem hE hn hkE, takeLast, ← List.filter_reverse]

/-- Eviction on a full window that does not contain the new key: dropping
the window head equals the last-`(n-1)` window of the filtered order. -/
theorem takeLast_tail {D : List String} {n : Nat} (hn : 1 ≤ n)
    (hfull : n ≤ D.length) {k : String} (hk : k ∉ takeLast n D) :
    (takeLast n D).tail =
      takeLast (n - 1) (D.filter (fun y => y ≠ k)) := by
  have hkE : k ∉ D.reverse.take n := by
    rw [takeLast] at hk
    intro hmem
    exact hk (List.mem_reverse.mpr hmem)
  have hTlen : (D.reverse.take n).length = n := by
    rw [List.length_take, List.length_reverse]
    omega
  have hfilterT : (D.reverse.take n).filter (fun y => y ≠ k) =
      D.reverse.take n :=
    List.filter_eq_self.mpr fun b hb => by
      simp only [decide_eq_true_eq]
      exact fun hEq => hkE (hEq ▸ hb)
  have hsplit : D.reverse.filter (fun y => y ≠ k) =
      D.reverse.take n ++ (D.reverse.drop n).filter (fun y => y ≠ k) := by
    rw [← hfilterT, ← List.filter_append, List.take_append_drop]
  rw [takeLast, tail_reverse, takeLast, ← List.filter_reverse, hsplit,
    List.take_append_of_le_length (by omega), List.dropLast_eq_take, hTlen,
    List.take_take]

/-- The keys of `eraseA` are the filtered keys. -/
theorem map_fst_eraseA {β : Type} (m : List (String × β)) (k : String) :
    (eraseA m k).map (·.1) = (m.map (·.1)).filter (fun y => y ≠ k) := by
  induction m with
  | nil => rfl
  | cons e rest ih =>
      by_cases h : e.1 = k
      · simp [eraseA, List.filter_cons, h] at ih ⊢
        exact ih
      · simp only [eraseA, List.filter_cons] at ih ⊢
        simp only [List.map_cons, List.filter_cons]
        rw [if_pos (by simpa using h), if_pos (by simpa using h)]
        simpa [eraseA] using ih

/-- One `Add` call preserves the tracker invariant: the scope-key order
list is the `maxKeys`-bounded suffix of the last-touch order of the add
history, and the item keys are a permutation of the order list. -/
theorem rr_add_inv (r : RecentResources) (hist : List String)
    (hmk : r.maxKeys = maxRecentKeys)
    (hko : r.keyOrder = takeLast maxRecentKeys (dedupL hist))
    (hperm : (r.items.map (·.1)).Perm r.keyOrder) (c n t nm : String) :
    (r.Add c n t nm).maxKeys = maxRecentKeys ∧
    (r.Add c n t nm).keyOrder =
      takeLast maxRecentKeys (dedupL (hist ++ [scopeKey c n t])) ∧
    (((r.Add c n t nm).items.map (·.1)).Perm (r.Add c n t nm).keyOrder) := by
  have hD : (dedupL hist).Nodup := dedupL_nodup hist
  have hone : (1 : Nat) ≤ maxRecentKeys := by norm_num [maxRecentKeys]
  have htarget : takeLast maxRecentKeys (dedupL (hist ++ [scopeKey c n t])) =
      takeLast (maxRecentKeys - 1)
          ((dedupL hist).filter (fun y => y ≠ scopeKey c n t)) ++
        [scopeKey c n t] := by
    rw [dedupL_concat,
      show maxRecentKeys = (maxRecentKeys - 1) + 1 by omega, takeLast_concat]
    norm_num
  by_cases hex : (lookupA r.items (scopeKey c n t)).isSome
  · have hkmem : scopeKey c n t ∈ r.keyOrder :=
      hperm.mem_iff.mp ((lookupA_isSome_iff _ _).mp hex)
    have h1 : r.Add c n t nm =
        { r with
          items := setA r.items (scopeKey c n t)
            (List.take r.maxItems
              (nm :: ((lookupA r.items (scopeKey c n t)).getD []).erase nm))
          keyOrder := moveKeyToEnd r.keyOrder (scopeKey c n t) } := by
      rw [RecentResources.Add]
      simp only [hex, if_true]
    rw [h1]
    refine ⟨hmk, ?_, ?_⟩
    · rw [htarget, moveKeyToEnd, if_pos hkmem, hko,
        takeLast_erase hD hone (hko ▸ hkmem)]
    · have hkeys :
          (setA r.items (scopeKey c n t)
              (List.take r.maxItems
                (nm :: ((lookupA r.items (scopeKey c n t)).getD []).erase
                    nm))).map (·.1) =
            r.items.map (·.1) := by
        rw [map_fst_setA, if_pos ((lookupA_isSome_iff _ _).mp hex)]
      rw [hkeys, moveKeyToEnd, if_pos hkmem]
      exact hperm.trans
        ((List.perm_cons_erase hkmem).trans
          (List.perm_append_singleton _ _).symm).symm.symm
  · have hknot : scopeKey c n t ∉ r.keyOrder := fun hmem =>
      hex ((lookupA_isSome_iff _ _).mpr (hperm.mem_iff.mpr hmem))
    have hknotI : scopeKey c n t ∉ r.items.map (·.1) := fun hmem =>
      hex ((lookupA_isSome_iff _ _).mpr hmem)
    have hexf : (lookupA r.items (scopeKey c n t)).isSome = false := by
      simpa using hex
    by_cases hfull : r.maxKeys ≤ r.keyOrder.length
    · have h1 : r.Add c n t nm =
          { r with
            items := eraseA
              (setA r.items (scopeKey c n t)
                (List.take r.maxItems
                  (nm ::
                    ((lookupA r.items (scopeKey c n t)).getD []).erase nm)))
              (r.keyOrder.headD "")
            keyOrder := r.keyOrder.tail ++ [scopeKey c n t] } := by
        rw [RecentResources.Add]
        simp only [hexf, Bool.false_eq_true, if_false, hfull, if_true]
      have hlenko : r.keyOrder.length = maxRecentKeys := by
        have h2 := length_takeLast maxRecentKeys (dedupL hist)
        rw [← hko] at h2
        rw [hmk] at hfull
        omega
      have hDlen : maxRecentKeys ≤ (dedupL hist).length := by
        have h2 := length_takeLast maxRecentKeys (dedupL hist)
        rw [← hko] at h2
        omega
      have hne : r.keyOrder ≠ [] := by
        intro hnil
        rw [hnil] at hlenko
        simp [maxRecentKeys] at hlenko
      have hcons : r.keyOrder = r.keyOrder.headD "" :: r.keyOrder.tail := by
        cases hko' : r.keyOrder with
        | nil => exact absurd hko' hne
        | cons a l => rfl
      rw [h1]
      refine ⟨hmk, ?_, ?_⟩
      · rw [htarget, hko, takeLast_tail hone (by omega) (hko ▸ hknot)]
      · have hheadmem : r.keyOrder.headD "" ∈ r.keyOrder := by
          rw [hcons]
          exact List.mem_cons_self _ _
        have hkonodup : r.keyOrder.Nodup := by
          rw [hko]
          exact takeLast_nodup hD _
        have hkne : scopeKey c n t ≠ r.keyOrder.headD "" := by
          intro hEq
          exact hknot (hEq ▸ hheadmem)
        rw [map_fst_eraseA, map_fst_setA, if_neg hknotI, List.filter_append]
        have hksingle :
            [scopeKey c n t].filter (fun y => y ≠ r.keyOrder.headD "") =
              [scopeKey c n t] := by
          rw [List.filter_cons,
            if_pos (by simp only [decide_eq_true_eq]; exact hkne),
            List.filter_nil]
        rw [hksingle]
        refine List.Perm.append_right _ ?_
        have hfiltp :
            ((r.items.map (·.1)).filter
                (fun y => y ≠ r.keyOrder.headD "")).Perm
              (r.keyOrder.filter (fun y => y ≠ r.keyOrder.headD "")) :=
          hperm.filter _
        have hnotintail : r.keyOrder.headD "" ∉ r.keyOrder.tail := by
          have hnd := hkonodup
          rw [hcons] at hnd
          exact (List.nodup_cons.mp hnd).1
        have hkofil :
            r.keyOrder.filter (fun y => y ≠ r.keyOrder.headD "") =
              r.keyOrder.tail := by
          conv_lhs => rw [hcons]
          rw [List.filter_cons, if_neg (by simp)]
          exact List.filter_eq_self.mpr fun b hb => by
            simp only [decide_eq_true_eq]
            exact fun hEq => hnotintail (hEq ▸ hb)
        rwa [hkofil] at hfiltp
    · have h1 : r.Add c n t nm =
          { r with
            items := setA r.items (scopeKey c n t)
              (List.take r.maxItems
                (nm :: ((lookupA r.items (scopeKey c n t)).getD []).erase nm))
            keyOrder := r.keyOrder ++ [scopeKey c n t] } := by
        rw [RecentResources.Add]
        simp only [hexf, Bool.false_eq_true, if_false, hfull]
      have hDsmall : (dedupL hist).length < maxRecentKeys := by
        have h2 := length_takeLast maxRecentKeys (dedupL hist)
        rw [← hko] at h2
        rw [hmk] at hfull
        omega
      have hkoD : r.keyOrder = dedupL hist :=
        hko.trans (takeLast_eq_self (by omega))
      have hkD : scopeKey c n t ∉ dedupL hist := hkoD ▸ hknot
      have hfilt : (dedupL hist).filter (fun y => y ≠ scopeKey c n t) =
          dedupL hist :=
        List.filter_eq_self.mpr fun b hb => by
          simp only [decide_eq_true_eq]
          exact fun hEq => hkD (hEq ▸ hb)
      rw [h1]
      refine ⟨hmk, ?_, ?_⟩
      · rw [htarget, hfilt, takeLast_eq_self (by omega), hkoD]
      · rw [map_fst_setA, if_neg hknotI]
        exact hperm.append_right _

/-- The tracker invariant holds after any operation sequence. -/
theorem rr_run_inv (ops : List ROp) :
    ∀ (r : RecentResources) (hist : List String),
      r.maxKeys = maxRecentKeys →
      r.keyOrder = takeLast maxRecentKeys (dedupL hist) →
      ((r.items.map (·.1)).Perm r.keyOrder) →
      (runROps r ops).maxKeys = maxRecentKeys ∧
      (runROps r ops).keyOrder =
        takeLast maxRecentKeys (dedupL (addKeysAcc hist ops)) ∧
      (((runROps r ops).items.map (·.1)).Perm (runROps r ops).keyOrder) := by
  induction ops with
  | nil => intro r hist hmk hko hperm; exact ⟨hmk, hko, hperm⟩
  | cons op rest ih =>
      intro r hist hmk hko hperm
      cases op with
      | add c n t nm =>
          have hstep := rr_add_inv r hist hmk hko hperm c n t nm
          exact ih (r.Add c n t nm) (hist ++ [scopeKey c n t]) hstep.1
            hstep.2.1 hstep.2.2
      | get c n t => exact ih r hist hmk hko hperm
      | clear =>
          refine ih r.Clear [] hmk ?_ ?_
          · simp [RecentResources.Clear, takeLast, dedupL, dedupF]
          · simp [RecentResources.Clear]

/-- **C5.**  After any sequence of `add`, `get` and `clear` calls on a
fresh tracker: the scope-key order list is exactly the `maxKeys`-bounded
suffix of the keys touched since the last `clear`, ordered by last touch
(so its head is the least-recently-added-or-touched key); the tracker
holds at most `maxKeys = 100` scope keys, both in the order list and in
the item map; and when an `add` of a new scope key arrives while the
order list is full, the key evicted — removed from the item map and
dropped from the order list — is that oldest head key. -/
theorem c5_lru_eviction (m : Nat) (ops : List ROp) (c n t nm : String) :
    (runROps (newRecentResources m) ops).keyOrder =
      takeLast maxRecentKeys (dedupL (addKeysSinceClear ops)) ∧
    (runROps (newRecentResources m) ops).keyOrder.length ≤ maxRecentKeys ∧
    ((runROps (newRecentResources m) ops).items.map (·.1)).length ≤
      maxRecentKeys ∧
    (lookupA (runROps (newRecentResources m) ops).items (scopeKey c n t) =
        none →
      maxRecentKeys ≤ (runROps (newRecentResources m) ops).keyOrder.length →
      lookupA ((runROps (newRecentResources m) ops).Add c n t nm).items
          ((runROps (newRecentResources m) ops).keyOrder.headD "") = none ∧
        ((runROps (newRecentResources m) ops).Add c n t nm).keyOrder =
          (runROps (newRecentResources m) ops).keyOrder.tail ++
            [scopeKey c n t]) := by
  obtain ⟨hmk, hko, hperm⟩ :=
    rr_run_inv ops (newRecentResources m) [] rfl (by rfl)
      (by exact List.Perm.refl _)
  have hlen : (runROps (newRecentResources m) ops).keyOrder.length ≤
      maxRecentKeys := by
    rw [hko, length_takeLast]
    omega
  refine ⟨hko, hlen, by rw [hperm.length_eq]; exact hlen, ?_⟩
  intro hnone hfull
  have hexf :
      (lookupA (runROps (newRecentResources m) ops).items
          (scopeKey c n t)).isSome = false := by
    rw [hnone]
    rfl
  have h1 : (runROps (newRecentResources m) ops).Add c n t nm =
      { runROps (newRecentResources m) ops with
        items := eraseA
          (setA (runROps (newRecentResources m) ops).items (scopeKey c n t)
            (List.take (runROps (newRecentResources m) ops).maxItems
              (nm ::
                ((lookupA (runROps (newRecentResources m) ops).items
                      (scopeKey c n t)).getD []).erase nm)))
          ((runROps (newRecentResources m) ops).keyOrder.headD "")
        keyOrder := (runROps (newRecentResources m) ops).keyOrder.tail ++
          [scopeKey c n t] } := by
    rw [RecentResources.Add]
    simp only [hexf, Bool.false_eq_true, if_false, hmk, hfull, if_true]
  rw [h1]
  exact ⟨lookupA_eraseA_self _ _, rfl⟩

/-- Witness instantiating C5 at a concrete operation sequence. -/
theorem c5_lru_eviction_witness :
    (runROps (newRecentResources 20) [ROp.add "a" "b" "c" "x"]).keyOrder.length
      ≤ maxRecentKeys :=
  (c5_lru_eviction 20 [ROp.add "a" "b" "c" "x"] "a" "b" "c" "x").2.1

/-! ## C9: the watch-status flag life cycle -/

/-- **C9, counterexample.**  A single cycle that hydrates, drains one
event and then loses its watch channel leaves the task sleeping in
backoff with the watch-status flag still `true`: the flag is *not*
restricted to the streaming state.  (`runWatch` sets the flag after the
list and nothing clears it on the error path; only `cleanupWatch` /
`StopWatching` clear it.) -/
theorem c9_counterexample :
    (Phase.backoffSleep, true) ∈
      taskRun TaskState.start
        [RunOutcome.channelClosed [WEvent.added (mkObj "d" "p")]] := by
  decide

/-- The flag tracks "hydrated and not torn down" through every cycle. -/
theorem taskState_flag_inv (script : List RunOutcome) :
    ∀ st : TaskState, st.flag = (st.hydrated && !st.exited) →
      st.exited = false →
      (taskState st script).flag =
        ((taskState st script).hydrated && !(taskState st script).exited) := by
  induction script with
  | nil => intro st h _; exact h
  | cons o rest ih =>
      intro st h he
      cases o with
      | clientError =>
          simp only [taskState, cycleObs]
          rw [if_neg (by simp [he])]
          exact ih st h he
      | listFailed =>
          simp only [taskState, cycleObs]
          rw [if_neg (by simp [he])]
          exact ih st h he
      | watchOpenFailed =>
          simp only [taskState, cycleObs]
          rw [if_neg (by simp [he])]
          exact ih _ (by simp [he]) (by simp [he])
      | channelClosed evs =>
          simp only [taskState, cycleObs]
          rw [if_neg (by simp [he])]
          exact ih _ (by simp [he]) (by simp [he])
      | cancelledEarly => simp [taskState, cycleObs]
      | cancelledStreaming evs => simp [taskState, cycleObs]

/-- Appending one more cycle to a script of a still-running task appends
its observations. -/
theorem taskRun_append (o : RunOutcome) :
    ∀ (script : List RunOutcome) (st : TaskState),
      (taskState st script).exited = false →
      taskRun st (script ++ [o]) =
        taskRun st script ++ (cycleObs (taskState st script) o).1 := by
  intro script
  induction script with
  | nil =>
      intro st _
      simp only [List.nil_append, taskRun, taskState]
      split <;> simp
  | cons o2 rest ih =>
      intro st hend
      simp only [taskState] at hend
      by_cases he2 : (cycleObs st o2).2.exited
      · rw [if_pos he2] at hend
        rw [hend] at he2
        simp at he2
      · rw [if_neg he2] at hend
        simp only [List.cons_append, taskRun, taskState, if_neg he2]
        rw [List.append_assoc]
        exact congrArg _ (ih _ hend)

/-- **C9, amended.**  The watch-status flag is true iff some initial list
hydration has completed and the goroutine has not torn down — but it is
*not* true only in the streaming state: it survives watch errors, so a
still-running task that hydrated and then lost its channel observes the
backoff sleep with the flag still true. -/
theorem c9_flag_iff_hydrated_not_torn (script : List RunOutcome)
    (evs : List WEvent) :
    ((taskState TaskState.start script).flag =
        ((taskState TaskState.start script).hydrated &&
          !(taskState TaskState.start script).exited)) ∧
      ((taskState TaskState.start script).exited = false →
        (Phase.backoffSleep, true) ∈
          taskRun TaskState.start
            (script ++ [RunOutcome.channelClosed evs])) := by
  constructor
  · exact taskState_flag_inv script TaskState.start rfl rfl
  · intro hex
    rw [taskRun_append _ script _ hex]
    refine List.mem_append_right _ ?_
    simp [cycleObs]

/-- Witness for C9's amended theorem at the empty script. -/
theorem c9_flag_witness :
    (taskState TaskState.start []).exited = false ∧
      (Phase.backoffSleep, true) ∈
        taskRun TaskState.start ([] ++ [RunOutcome.channelClosed []]) :=
  ⟨rfl, (c9_flag_iff_hydrated_not_torn [] []).2 rfl⟩

end Kfzf
